import Mathlib

/-!
Verification development for the cilly command-line parsing engine.

The definitions below are a shallow embedding of the TypeScript sources:
 - the token classifier (tokens/token-parser.ts),
 - the command / argument / option data model and its registration,
   inheritance, parsing and processing operations (cli-command.ts).

JavaScript strings are modelled as Lean `String` (operating on `String.data`,
the list of characters, where character-level reasoning is needed); JavaScript
objects used as insertion-ordered string-keyed maps are modelled as
association lists `List (String × α)` where assignment overwrites in place
and new keys are appended.  `undefined` is a distinguished value constructor.
Thrown exceptions are modelled with `Except`.
-/

/-! ## Token classifier (tokens/token-parser.ts) -/

/-- JavaScript `\w` (no unicode flag): ASCII letters, digits, underscore. -/
def isWordChar (c : Char) : Bool :=
  c.isAlphanum || c == '_'

/-- JavaScript `String.prototype.split` with a single-character separator.
`splitOnChar sep l` returns the (possibly empty) segments of `l` between
occurrences of `sep`; like JS, splitting the empty string gives `[[]]`. -/
def splitOnChar (sep : Char) : List Char → List (List Char)
  | [] => [[]]
  | c :: rest =>
    match splitOnChar sep rest with
    | [] => if c == sep then [[], []] else [[c]]
    | g :: gs => if c == sep then [] :: g :: gs else (c :: g) :: gs

/-- String-level wrapper for `splitOnChar`: JS `s.split(sep)`. -/
def splitStr (sep : Char) (s : String) : List String :=
  (splitOnChar sep s.data).map String.mk

/-- Does `pat` occur at the start of `l`? (helper for `removeFirstChars`). -/
def startsWithChars : List Char → List Char → Bool
  | [], _ => true
  | _ :: _, [] => false
  | p :: ps, c :: cs => p == c && startsWithChars ps cs

/-- JS `s.replace(pat, '')` for a plain (non-regex) `pat`: removes the first
occurrence of `pat`, leaves the string unchanged when `pat` does not occur. -/
def removeFirstChars (pat : List Char) : List Char → List Char
  | [] => []
  | c :: rest =>
    if startsWithChars pat (c :: rest) then (c :: rest).drop pat.length
    else c :: removeFirstChars pat rest

/-- String-level wrapper for `removeFirstChars`: JS `s.replace(pat, '')`. -/
def replaceFirstStr (pat s : String) : String :=
  String.mk (removeFirstChars pat.data s.data)

/-- The tail of the anchored regex `(\w((\w\-\w)|\w|)*)` after its leading
`\w`: a sequence of blocks, each either two word characters around a dash
(`\w\-\w`) or a single word character.  The regex alternation is forced: when
the character after a word character is a dash, only the `\w\-\w` branch can
consume it, so the deterministic matcher below is equivalent to the
backtracking regex. -/
def nameBlocksOk : List Char → Bool
  | [] => true
  | [c] => isWordChar c
  | c :: d :: rest2 =>
    isWordChar c &&
      (if d == '-' then
        match rest2 with
        | [] => false
        | e :: rest' => isWordChar e && nameBlocksOk rest'
      else nameBlocksOk (d :: rest2))

/-- Whole-string match of `OPTION_NAME_SYNTAX = (\w((\w\-\w)|\w|)*)`. -/
def validNameChars : List Char → Bool
  | [] => false
  | c :: rest => isWordChar c && nameBlocksOk rest

/-- `TokenParser.isValidName`: whole-string match of the option-name regex. -/
def isValidName (s : String) : Bool :=
  validNameChars s.data

/-- `TokenParser.isShortOptionName`: exactly one leading dash then a name. -/
def isShortOptionName (s : String) : Bool :=
  match s.data with
  | '-' :: rest => validNameChars rest
  | _ => false

/-- `TokenParser.isLongOptionName`: exactly two leading dashes then a name. -/
def isLongOptionName (s : String) : Bool :=
  match s.data with
  | '-' :: '-' :: rest => validNameChars rest
  | _ => false

/-- `TokenParser.isOptionName`. -/
def isOptionName (s : String) : Bool :=
  isShortOptionName s || isLongOptionName s

/-- `TokenParser.isVariadicTerminator`: the literal token `--`. -/
def isVariadicTerminator (t : String) : Bool :=
  t == "--"

/-- `TokenParser.isOptionAssignment`: the token contains `=` and the part
before the first `=` (JS `token.split('=')[0]`) is an option flag. -/
def isOptionAssignment (t : String) : Bool :=
  t.data.contains '=' && isOptionName (String.mk ((splitOnChar '=' t.data).headD []))

/-- `getNegatedFlag`: `--no-` prepended to the long flag with its first
occurrence of `--` removed. -/
def getNegatedFlag (longFlag : String) : String :=
  "--no-" ++ replaceFirstStr "--" longFlag

/-- `TokenParser.capitalize`: JS `name.slice(0, 1).toUpperCase() + name.slice(1)`. -/
def capitalize (name : String) : String :=
  String.mk ((name.data.take 1).map Char.toUpper) ++ String.mk (name.data.drop 1)

/-- JS `Array.prototype.join('')`. -/
def joinAll (l : List String) : String :=
  l.foldr (fun a b => a ++ b) ""

/-- `TokenParser.toCamelCase`: JS
`words.slice(0, 1) + words.slice(1).map(w => capitalize(w)).join('')`.
`words.slice(0, 1)` is a one-element (or empty) array coerced to a string,
i.e. the first word unchanged (or `""` for the empty list). -/
def toCamelCase (words : List String) : String :=
  (match words with
    | [] => ""
    | w :: _ => w) ++ joinAll ((words.drop 1).map capitalize)

/-! ### Specification-side predicates used to state the claims -/

/-- No two consecutive dashes anywhere in the character list. -/
def noDoubleDash : List Char → Bool
  | [] => true
  | [_] => true
  | a :: b :: rest => !(a == '-' && b == '-') && noDoubleDash (b :: rest)

/-- The name predicate exactly as claim C9 words it: non-empty, only
alphanumeric characters and dashes, no leading or trailing dash, and no two
consecutive dashes (and hence no punctuation such as `_`). -/
def claimAlnumDashName (s : String) : Bool :=
  s.data ≠ [] &&
  s.data.all (fun c => c.isAlphanum || c == '-') &&
  s.data.headD '-' != '-' &&
  s.data.getLastD '-' != '-' &&
  noDoubleDash s.data

/-- Segment shape actually accepted by the option-name regex, stated over the
dash-separated segments of the string: every segment consists of word
characters, the final segment is non-empty, and every segment that is
followed by a dash has length at least two. -/
def segsAfterDash : List (List Char) → Bool
  | [] => false
  | [g] => !g.isEmpty && g.all isWordChar
  | g :: rest => !g.isEmpty && !g.tail.isEmpty && g.all isWordChar && segsAfterDash rest

/-- Shape of the remainder of a name after its first character, stated over
dash-separated segments: the first segment may be empty only when it is the
only one, and from the first dash on the segments obey `segsAfterDash`. -/
def tailSegs : List (List Char) → Bool
  | [] => false
  | [g] => g.all isWordChar
  | g :: rest => !g.isEmpty && g.all isWordChar && segsAfterDash rest

/-! ## Data model (cli-command.ts)

`ArgumentValue` / `OptionValue` (`any` in TS) is modelled by the inductive
`AVal`; `undefined` (and `null`) is `AVal.undef`.  Hooks are modelled as
follows: `onParse` hooks are pure observers (they receive the value and the
parse snapshot and return nothing), so only their presence is recorded;
`onProcess` hooks are modelled by the sequence of values they pass to their
`assign` capability, as a function of the value and parse snapshot they were
invoked with.  Validators return `true`, `false`, or a reason string
(`Validator = (value, input) => string | boolean`). -/

inductive AVal where
  | undef
  | bool (b : Bool)
  | str (s : String)
  | strList (l : List String)
  | obj (fields : List (String × AVal))

/-- Result of a validator: `true`, `false`, or a reason string. -/
inductive VRes where
  | vtrue
  | vfalse
  | vstr (s : String)
deriving DecidableEq

/-- The per-node parse state `this.parsed = { args: {}, opts: {}, extra: [] }`. -/
structure ParsedState where
  args : List (String × AVal)
  opts : List (String × AVal)
  extra : List String

/-- The freshly initialised accumulator `{ args: {}, opts: {}, extra: [] }`. -/
def emptyParsed : ParsedState := ⟨[], [], []⟩

/-- The `Argument` record type (`description` omitted: presentation only). -/
structure Argument where
  name : String
  required : Bool := false
  variadic : Bool := false
  defaultValue : AVal := .undef
  hasOnParse : Bool := false
  onProcess : Option (AVal → ParsedState → List AVal) := none
  validator : Option (AVal → ParsedState → VRes) := none

/-- The `Option` record type of the source (named `COpt` because `Option` is
taken in Lean); `name` is the `[short, long]` flag pair, `args` the nested
argument definitions, with `none` modelling an absent (`undefined`) `args`
field as distinct from an empty array. -/
structure COpt where
  name : String × String
  required : Bool := false
  negatable : Bool := false
  args : Option (List Argument) := none
  defaultValue : AVal := .undef
  hasOnParse : Bool := false
  onProcess : Option (AVal → ParsedState → List AVal) := none
  validator : Option (AVal → ParsedState → VRes) := none

/-- An entry of `onProcessQueue : (Option | Argument)[]`. -/
inductive Defn where
  | arg (a : Argument)
  | opt (o : COpt)

/-- `inheritOpts?: boolean | { except: string[] }`; `undefined` and `false`
behave identically in the source (both falsy, both non-objects) and are
both modelled by `off`. -/
inductive InheritOpts where
  | off
  | all
  | except (flags : List String)

/-- JS truthiness of the `inheritOpts` field. -/
def inheritTruthy : InheritOpts → Bool
  | .off => false
  | _ => true

/-! JS objects used as string-keyed maps are association lists with JS
insertion-order semantics: assigning an existing key overwrites in place,
a new key is appended.  (The JS reordering of integer-like keys is not
modelled; no claim involves numeric names.) -/

def lookupAssoc {α : Type} (k : String) : List (String × α) → Option α
  | [] => none
  | (k', v) :: rest => if k' == k then some v else lookupAssoc k rest

def insertAssoc {α : Type} (k : String) (v : α) : List (String × α) → List (String × α)
  | [] => [(k, v)]
  | (k', v') :: rest =>
    if k' == k then (k', v) :: rest else (k', v') :: insertAssoc k v rest

/-- `Object.values` of a JS object modelled as an association list. -/
def assocValues {α : Type} (m : List (String × α)) : List α :=
  m.map Prod.snd

/-! ### Canonical names (`getName` / `getShortName`, cli-command.ts 627-658) -/

/-- Canonical name of an option: `toCamelCase(name[1].replace('--', '').split('-'))`. -/
def getOptionName (o : COpt) : String :=
  toCamelCase (splitStr '-' (replaceFirstStr "--" o.name.2))

/-- Canonical name of an argument: `toCamelCase(name.split('-'))`. -/
def getArgName (a : Argument) : String :=
  toCamelCase (splitStr '-' a.name)

/-- Canonical key of a short flag: `toCamelCase(flag.replace('-', '').split('-'))`. -/
def getShortKey (flag : String) : String :=
  toCamelCase (splitStr '-' (replaceFirstStr "-" flag))

/-- Canonical name of a queue entry (`this.getName(definition)`). -/
def getDefnName : Defn → String
  | .arg a => getArgName a
  | .opt o => getOptionName o

/-! ### Exceptions (exceptions.ts); payload command dumps are omitted. -/

inductive CillyErr where
  | invalidCommandName (name : String)
  | invalidArgumentName (name : String)
  | invalidShortOptionName (name : String)
  | invalidLongOptionName (name : String)
  | invalidNumOptionNames
  | duplicateArgument (name : String)
  | duplicateCommandName (name : String)
  | duplicateOption (name : String)
  | noArgsAndSubCommands
  | noCommandHandler (name : String)
  | expectedButGot (expected : String) (got : String)
  | unknownOption (flag : String)
  | unknownSubcommand (token : String)
  | unexpectedArgument (token : String)
  | validationError (name : String) (value : AVal) (result : VRes)
  | fuelExhausted

/-- The `ExpectedButGotException('a value for "<name>"', 'nothing')` payload. -/
def expectedValueFor (nm : String) : CillyErr :=
  .expectedButGot ("a value for \"" ++ nm ++ "\"") "nothing"

/-! ### Argument consumption (cli-command.ts 498-558) -/

/-- `consumeVariadicArguments`: take tokens while the head is truthy and not
an option flag; a `--` terminator is discarded and stops the capture.
Returns the captured values and the remaining queue. -/
def consumeVariadicArguments : List String → List String × List String
  | [] => ([], [])
  | t :: rest =>
    if t == "" || isOptionName t then ([], t :: rest)
    else if isVariadicTerminator t then ([], rest)
    else
      let (vals, q') := consumeVariadicArguments rest
      (t :: vals, q')

/-- `consumeSingleArgument`: `undefined` when the head is an option flag,
otherwise `q.shift()`. -/
def consumeSingleArgument : List String → Option String × List String
  | [] => (none, [])
  | t :: rest => if isOptionName t then (none, t :: rest) else (some t, rest)

/-- `consumeArgument` (cli-command.ts 498-534): resolve a value for one
argument definition from the queue.  The `onParse` observer hook is not
modelled (it returns nothing and the engine ignores it).  JS `if (next)`
is false for an absent head and for the empty-string token. -/
def consumeArgument (a : Argument) (q : List String) :
    Except CillyErr ((String × AVal) × List String) :=
  let res : AVal × List String :=
    match q with
    | [] => (AVal.undef, q)
    | t :: _ =>
      if t == "" then (AVal.undef, q)
      else if a.variadic then
        let (vals, q2) := consumeVariadicArguments q
        (AVal.strList vals, q2)
      else
        match consumeSingleArgument q with
        | (none, q2) => (AVal.undef, q2)
        | (some s, q2) => (AVal.str s, q2)
  match res with
  | (.undef, q') =>
    if a.variadic then .ok ((getArgName a, .strList []), q')
    else if a.required then .error (expectedValueFor a.name)
    else .ok ((getArgName a, a.defaultValue), q')
  | (v, q') => .ok ((getArgName a, v), q')

/-! ### Command nodes

`CliCommand` is a tree; the non-recursive per-node fields are collected in
`CommandCore`.  Presentation-only fields (`description`, `version`,
`helpHandler`, `handlerContext`, `extra`) are omitted; the handler is
modelled by its presence (`hasHandler`), since no claim depends on a
handler's return value. -/

structure CommandCore where
  name : String
  inheritOpts : InheritOpts := .off
  consumeUnknownArgs : Bool := false
  consumeUnknownOpts : Bool := false
  hasHandler : Bool := false
  args : List Argument := []
  opts : List (String × COpt) := []
  shortNameMap : List (String × String) := []
  argsMap : List (String × Argument) := []
  negatableOptsMap : List (String × COpt) := []
  onProcessQueue : List Defn := []
  parsed : ParsedState := ⟨[], [], []⟩

inductive CliCommand where
  | mk (core : CommandCore) (subCommands : List (String × CliCommand))

def CliCommand.core : CliCommand → CommandCore
  | .mk k _ => k

def CliCommand.subCommands : CliCommand → List (String × CliCommand)
  | .mk _ s => s

mutual

/-- `getName` applied to a flag token (cli-command.ts 641-650): a long flag is
converted directly, a short flag goes through `shortNameMap` (which can miss,
modelled by `none` for JS `undefined`). -/
def getNameTok (core : CommandCore) (t : String) : Option String :=
  if isLongOptionName t then some (toCamelCase (splitStr '-' (replaceFirstStr "--" t)))
  else lookupAssoc (getShortKey t) core.shortNameMap

/-- The unknown-flag path of `consumeOption` (cli-command.ts 452-463): a
negated flag of a negatable option binds `false`; otherwise the token goes to
`extra` under `consumeUnknownOpts`, or raises `UnknownOptionException`. -/
def consumeOptionUnknown (core : CommandCore) (next : String) (rest : List String) :
    Except CillyErr (Option (String × AVal) × List String × CommandCore) :=
  match lookupAssoc next core.negatableOptsMap with
  | some opt => .ok (some (getOptionName opt, .bool false), rest, core)
  | none =>
    if core.consumeUnknownOpts then
      .ok (none, rest,
        { core with parsed := { core.parsed with extra := core.parsed.extra ++ [next] } })
    else .error (.unknownOption next)

/-- The nested-argument loop of `consumeOption` (cli-command.ts 477-483):
consume each declared argument in order into the option's value object. -/
def consumeOptionArgs : List Argument → List String → List (String × AVal) →
    Except CillyErr (List (String × AVal) × List String)
  | [], q, acc => .ok (acc, q)
  | a :: moreDefs, q, acc =>
    match consumeArgument a q with
    | .error e => .error e
    | .ok ((nm, v), q') => consumeOptionArgs moreDefs q' (insertAssoc nm v acc)

/-- The collapse step (cli-command.ts 485-489): an option value that is an
object with exactly one key becomes that key's value. -/
def collapseOptionValue (v : AVal) : AVal :=
  match v with
  | .obj [f] => f.2
  | _ => v

/-- `consumeOption` (cli-command.ts 441-496).  Returns the bound
`(name, value)` pair (or `none` when the token was dropped or routed to
`extra`), the remaining queue, and the possibly updated node state.  The
`onParse` observer hook is not modelled. -/
def consumeOption (core : CommandCore) (q : List String) :
    Except CillyErr (Option (String × AVal) × List String × CommandCore) :=
  match q with
  | [] => .ok (none, [], core)
  | next :: rest =>
    if next == "" then .ok (none, rest, core)
    else
      match getNameTok core next with
      | none => consumeOptionUnknown core next rest
      | some nm =>
        match lookupAssoc nm core.opts with
        | none => consumeOptionUnknown core next rest
        | some opt =>
          if (lookupAssoc nm core.parsed.opts).isSome then .error (.duplicateOption nm)
          else
            match
              (match opt.args with
                | none => .ok (AVal.bool true, rest)
                | some argDefs =>
                  match consumeOptionArgs argDefs rest [] with
                  | .error e => .error e
                  | .ok (fields, q') => .ok (AVal.obj fields, q')
                : Except CillyErr (AVal × List String))
            with
            | .error e => .error e
            | .ok (v, q') => .ok (some (nm, collapseOptionValue v), q', core)

/-- `handleUnassignedOptions` (cli-command.ts 564-574), in iteration order over
the option map: a required unbound option raises `ExpectedButGotException`,
an optional unbound one is bound to its default value. -/
def handleUnassignedOptions : List (String × COpt) → ParsedState →
    Except CillyErr ParsedState
  | [], p => .ok p
  | (nm, opt) :: rest, p =>
    if (lookupAssoc nm p.opts).isSome then handleUnassignedOptions rest p
    else if opt.required then .error (expectedValueFor nm)
    else handleUnassignedOptions rest { p with opts := insertAssoc nm opt.defaultValue p.opts }

/-- `handleUnassignedArguments` (cli-command.ts 580-588): any remaining
required argument raises (the first one, raw name in the message); then every
remaining argument is bound to its default value. -/
def handleUnassignedArguments (args : List Argument) (p : ParsedState) :
    Except CillyErr ParsedState :=
  match args.find? (fun a => a.required) with
  | some a => .error (expectedValueFor a.name)
  | none =>
    .ok { p with
          args := args.foldl (fun m a => insertAssoc (getArgName a) a.defaultValue m) p.args }

/-- `splitOptionAssignments` (cli-command.ts 677-690): rewrite every
option-assignment token into the first two components of its `=`-split
(JS `const [option, value] = arg.split('=')`). -/
def splitOptionAssignments : List String → List String
  | [] => []
  | a :: rest =>
    (if isOptionAssignment a then
      match (splitOnChar '=' a.data).map String.mk with
      | o :: v :: _ => [o, v]
      | _ => [a]
    else [a]) ++ splitOptionAssignments rest

/-- The `while (q.length)` loop of `parse` (cli-command.ts 298-335) plus the
finalisation calls, as a fuel-indexed recursion (the fuel only bounds the
number of loop iterations and sub-command descents; `parse` supplies enough
for any actual run).  Sub-command delegation re-enters the child's full
`parse(q, { raw: true })`, including the child's own `=`-splitting pre-pass.
Returns the parse result together with the mutated node (the source mutates
`this.args` and `this.parsed` in place). -/
def parseLoop : Nat → CliCommand → List String → Except CillyErr (ParsedState × CliCommand)
  | 0, _, _ => .error .fuelExhausted
  | fuel + 1, .mk core subs, q =>
    match q with
    | [] =>
      match handleUnassignedOptions core.opts core.parsed with
      | .error e => .error e
      | .ok p1 =>
        match handleUnassignedArguments core.args p1 with
        | .error e => .error e
        | .ok p2 => .ok (p2, .mk { core with parsed := p2 } subs)
    | next :: rest =>
      if next == core.name then parseLoop fuel (.mk core subs) rest
      else
        match lookupAssoc next subs with
        | some child =>
          match parseLoop fuel child (splitOptionAssignments q) with
          | .error e => .error e
          | .ok (r, child') => .ok (r, .mk core (insertAssoc next child' subs))
        | none =>
          if isOptionName next then
            match consumeOption core q with
            | .error e => .error e
            | .ok (none, q', core') => parseLoop fuel (.mk core' subs) q'
            | .ok (some (nm, v), q', core') =>
              parseLoop fuel
                (.mk { core' with
                       parsed := { core'.parsed with
                                   opts := insertAssoc nm v core'.parsed.opts } } subs) q'
          else
            match core.args with
            | a :: restArgs =>
              match consumeArgument a q with
              | .error e => .error e
              | .ok ((nm, v), q') =>
                parseLoop fuel
                  (.mk { core with
                         args := restArgs,
                         parsed := { core.parsed with
                                     args := insertAssoc nm v core.parsed.args } } subs) q'
            | [] =>
              if !subs.isEmpty then .error (.unknownSubcommand next)
              else if core.consumeUnknownArgs then
                parseLoop fuel
                  (.mk { core with
                         parsed := { core.parsed with
                                     extra := core.parsed.extra ++ [next] } } subs) rest
              else .error (.unexpectedArgument next)

/-- Loop-iteration budget for a command tree: one finalisation step plus one
step per positional argument per node, plus one descent step per node.
(Defined by mutual recursion with its list version so that the kernel can
evaluate it.) -/
def cmdWeight : CliCommand → Nat
  | .mk core subs => 1 + core.args.length + cmdWeightList subs

def cmdWeightList : List (String × CliCommand) → Nat
  | [] => 0
  | (_, c) :: rest => 1 + cmdWeight c + cmdWeightList rest

end

mutual

/-- `parse` (cli-command.ts 293-335): strip the first two tokens unless `raw`,
apply the `=`-splitting pre-pass, then run the loop.  The fuel is a crude but
safe upper bound on the number of loop iterations: every iteration consumes a
token, pops an argument definition, or descends into a sub-command, and each
descent's re-splitting pre-pass can at most double the remaining queue. -/
def parse (c : CliCommand) (processArgs : List String) (raw : Bool) :
    Except CillyErr (ParsedState × CliCommand) :=
  let q := splitOptionAssignments (if raw then processArgs else processArgs.drop 2)
  parseLoop ((q.length + 2) * 2 ^ cmdWeight c) c q

/-- Reset the per-node parse accumulators (`this.parsed`) of a whole tree to
the freshly-initialised state, leaving every other field (in particular the
consumed `this.args` list) untouched. -/
def resetParsed : CliCommand → CliCommand
  | .mk core subs => .mk { core with parsed := emptyParsed } (resetParsedList subs)

def resetParsedList : List (String × CliCommand) → List (String × CliCommand)
  | [] => []
  | (nm, c) :: rest => (nm, resetParsed c) :: resetParsedList rest

end

/-! ### Registration (cli-command.ts 106-217, 590-625) -/

mutual

/-- `checkInheritOpts` (cli-command.ts 692-700): every except-list entry must
be a long flag. -/
def checkInheritOpts (inh : InheritOpts) : Except CillyErr Unit :=
  match inh with
  | .except flags =>
    match flags.find? (fun f => !(isLongOptionName f)) with
    | some f => .error (.invalidLongOptionName f)
    | none => .ok ()
  | _ => .ok ()

/-- `checkArgument` (cli-command.ts 607-615); `subsEmpty` is the emptiness of
the node's sub-command map, whose check is skipped for option-nested
arguments. -/
def checkArgument (subsEmpty : Bool) (isOptionArg : Bool) (a : Argument) :
    Except CillyErr Unit :=
  if !isOptionArg && !subsEmpty then .error .noArgsAndSubCommands
  else if !(isValidName a.name) then .error (.invalidArgumentName a.name)
  else .ok ()

/-- `checkOption` (cli-command.ts 590-605).  The `name.length !== 2` check is
made vacuous by the pair type of `COpt.name`. -/
def checkOption (o : COpt) : Except CillyErr Unit :=
  if !(isShortOptionName o.name.1) then .error (.invalidShortOptionName o.name.1)
  else if !(isLongOptionName o.name.2) then .error (.invalidLongOptionName o.name.2)
  else
    match (o.args.getD []).find? (fun a => !(isValidName a.name)) with
    | some a => .error (.invalidArgumentName a.name)
    | none => .ok ()

/-- `withArguments` (cli-command.ts 142-158): per argument, validate, reject a
duplicate raw name, then append to `args`, record in `argsMap` under the
canonical name, and push onto `onProcessQueue`. -/
def withArguments : CliCommand → List Argument → Except CillyErr CliCommand
  | c, [] => .ok c
  | .mk core subs, a :: rest =>
    match checkArgument subs.isEmpty false a with
    | .error e => .error e
    | .ok () =>
      if core.args.any (fun a0 => a0.name == a.name) then .error (.duplicateArgument a.name)
      else
        withArguments
          (.mk { core with
                 args := core.args ++ [a],
                 argsMap := insertAssoc (getArgName a) a core.argsMap,
                 onProcessQueue := core.onProcessQueue ++ [.arg a] } subs) rest

/-- `shouldInheritOption` (cli-command.ts 198-205), evaluated on the child:
never inherit `--help`; with an except-list, skip listed long flags. -/
def shouldInheritOption (inh : InheritOpts) (o : COpt) : Bool :=
  if o.name.2 == "--help" then false
  else
    match inh with
    | .except flags => !(flags.contains o.name.2)
    | _ => true

/-- Node count of a command tree (mutually with its list version so that the
kernel can evaluate it); bounds both the depth and the branching of the
registration recursion. -/
def cmdNodes : CliCommand → Nat
  | .mk _ subs => 1 + cmdNodesList subs

def cmdNodesList : List (String × CliCommand) → Nat
  | [] => 0
  | (_, c) :: rest => cmdNodes c + cmdNodesList rest

end

mutual

/-- Total number of registered option entries in a command tree. -/
def cmdOptsCount : CliCommand → Nat
  | .mk core subs => core.opts.length + cmdOptsCountList subs

def cmdOptsCountList : List (String × CliCommand) → Nat
  | [] => 0
  | (_, c) :: rest => cmdOptsCount c + cmdOptsCountList rest

end

/-! `withOptions` (cli-command.ts 160-184) and `inheritOptions` (186-196) are
mutually recursive through the tree: inserting an option into a node re-runs
inheritance on every sub-command flagged to inherit, passing the node's then
current option values.  The four mutually recursive procedures (the
`withOptions` loop, its body for one option, the propagation loop over the
sub-commands, and `inheritOptions`) are merged into the single fuel-indexed
function `regRun`, structurally recursive on the fuel so that it stays
kernel-evaluable; `regFuel` below supplies more than enough fuel for any
actual tree, and exhaustion surfaces as the (never reached) `fuelExhausted`
error. -/

/-- A pending call of the option-registration family. -/
inductive RegCall where
  | addAll (c : CliCommand) (options : List COpt)
  | addOne (c : CliCommand) (o : COpt)
  | propagate (parentOpts : List COpt) (subs : List (String × CliCommand))
  | inheritInto (c : CliCommand) (options : List COpt)

/-- Result of a `RegCall`: a command for `addAll`/`addOne`/`inheritInto`, an
updated sub-command list for `propagate`. -/
inductive RegRes where
  | cmd (c : CliCommand)
  | subs (l : List (String × CliCommand))

/-- The field updates of one `withOptions` loop iteration
(cli-command.ts 167-174): record the negated flag for a negatable option,
store the option under its canonical name, record the short-name mapping,
and push the option onto the `onProcess` queue. -/
def insertOptionCore (core : CommandCore) (o : COpt) : CommandCore :=
  { core with
    negatableOptsMap :=
      if o.negatable then insertAssoc (getNegatedFlag o.name.2) o core.negatableOptsMap
      else core.negatableOptsMap,
    opts := insertAssoc (getOptionName o) o core.opts,
    shortNameMap := insertAssoc (getShortKey o.name.1) (getOptionName o) core.shortNameMap,
    onProcessQueue := core.onProcessQueue ++ [.opt o] }

def regRun : Nat → RegCall → Except CillyErr RegRes
  | 0, _ => .error .fuelExhausted
  | fuel + 1, call =>
    match call with
    | .addAll c [] => .ok (.cmd c)
    | .addAll c (o :: rest) =>
      match regRun fuel (.addOne c o) with
      | .error e => .error e
      | .ok (.cmd c') => regRun fuel (.addAll c' rest)
      | .ok (.subs _) => .error .fuelExhausted
    | .addOne (.mk core subs) o =>
      match checkOption o with
      | .error e => .error e
      | .ok () =>
        match regRun fuel (.propagate (assocValues (insertOptionCore core o).opts) subs) with
        | .error e => .error e
        | .ok (.subs subs') => .ok (.cmd (.mk (insertOptionCore core o) subs'))
        | .ok (.cmd _) => .error .fuelExhausted
    | .propagate _ [] => .ok (.subs [])
    | .propagate parentOpts ((nm, ch) :: rest) =>
      match
        (if inheritTruthy ch.core.inheritOpts then regRun fuel (.inheritInto ch parentOpts)
         else .ok (.cmd ch)) with
      | .error e => .error e
      | .ok (.cmd ch') =>
        match regRun fuel (.propagate parentOpts rest) with
        | .error e => .error e
        | .ok (.subs rest') => .ok (.subs ((nm, ch') :: rest'))
        | .ok (.cmd _) => .error .fuelExhausted
      | .ok (.subs _) => .error .fuelExhausted
    | .inheritInto c options =>
      regRun fuel (.addAll c (options.filter (fun o => shouldInheritOption c.core.inheritOpts o)))

/-- The `withOptions` loop at a given fuel. -/
def withOptionsF (fuel : Nat) (c : CliCommand) (options : List COpt) :
    Except CillyErr CliCommand :=
  match regRun fuel (.addAll c options) with
  | .error e => .error e
  | .ok (.cmd c') => .ok c'
  | .ok (.subs _) => .error .fuelExhausted

/-- `inheritOptions` at a given fuel. -/
def inheritOptionsF (fuel : Nat) (c : CliCommand) (options : List COpt) :
    Except CillyErr CliCommand :=
  match regRun fuel (.inheritInto c options) with
  | .error e => .error e
  | .ok (.cmd c') => .ok c'
  | .ok (.subs _) => .error .fuelExhausted

/-- A grossly generous, kernel-evaluable bound on the nesting depth of the
registration recursion for a tree `c` and fresh options `os`. -/
def regFuel (c : CliCommand) (os : List COpt) : Nat :=
  (4 * (cmdOptsCount c + os.length + 2) * (cmdNodes c + 2)) ^ (cmdNodes c + 2)

/-- The public `withOptions`, with enough fuel for the whole tree. -/
def withOptions (c : CliCommand) (options : List COpt) : Except CillyErr CliCommand :=
  withOptionsF (regFuel c options) c options

/-- The implicit `['-h', '--help']` option registered by the constructor
(cli-command.ts 128-134); its `onParse` hook shows help and exits. -/
def helpOption : COpt :=
  { name := ("-h", "--help"), hasOnParse := true }

/-- `CliCommandOptions` (cli-command.ts 43-48).  In JS an options object with
omitted fields leaves them `undefined` (falsy), so every field defaults to
the falsy value here; the constructor's own default object is
`defaultCliCommandOptions` below. -/
structure CliCommandOptions where
  inheritOpts : InheritOpts := .off
  consumeUnknownArgs : Bool := false
  consumeUnknownOpts : Bool := false

/-- The default parameter object of the constructor (cli-command.ts 106-110):
`{ inheritOpts: false, consumeUnknownArgs: true, consumeUnknownOpts: false }`. -/
def defaultCliCommandOptions : CliCommandOptions :=
  { inheritOpts := .off, consumeUnknownArgs := true, consumeUnknownOpts := false }

/-- The `CliCommand` constructor (cli-command.ts 106-135): validate the name
and the except-list, then register the implicit help option. -/
def mkCliCommand (name : String) (opts : CliCommandOptions) : Except CillyErr CliCommand :=
  if !(isValidName name) then .error (.invalidCommandName name)
  else
    match checkInheritOpts opts.inheritOpts with
    | .error e => .error e
    | .ok () =>
      withOptions
        (.mk { name := name,
               inheritOpts := opts.inheritOpts,
               consumeUnknownArgs := opts.consumeUnknownArgs,
               consumeUnknownOpts := opts.consumeUnknownOpts } [])
        [helpOption]

/-- `withSubCommands` (cli-command.ts 207-217): reject when the node has
arguments or an equally named child; an inheriting child first receives the
parent's current option values, then is stored under its name. -/
def withSubCommands : CliCommand → List CliCommand → Except CillyErr CliCommand
  | c, [] => .ok c
  | .mk core subs, cmd :: rest =>
    if !core.args.isEmpty then .error .noArgsAndSubCommands
    else if (lookupAssoc cmd.core.name subs).isSome then
      .error (.duplicateCommandName cmd.core.name)
    else
      match
        (if inheritTruthy cmd.core.inheritOpts
         then inheritOptionsF (regFuel cmd (assocValues core.opts)) cmd (assocValues core.opts)
         else .ok cmd) with
      | .error e => .error e
      | .ok cmd' =>
        withSubCommands (.mk core (insertAssoc cmd'.core.name cmd' subs)) rest

/-! ### Process pipeline (cli-command.ts 337-359, 392-427)

`process` checks handlers, parses, resolves the terminal node, runs the
`onProcess` hooks over the resolved node's `onProcessQueue`, then a full
validator pass over `argsMap` and `opts`, then dispatches the handler.  The
functions below model the hook-and-validator portion on the resolved node;
every hook invocation and every validator execution is recorded as an event
so that ordering claims can be stated. -/

/-- The `'args' | 'opts'` discriminator of `runOnProcessHooks`
(cli-command.ts 396): an argument definition binds in `parsed.args`, an
option definition in `parsed.opts`. -/
inductive DefKind where
  | argsKind
  | optsKind
deriving DecidableEq

def defnKind : Defn → DefKind
  | .arg _ => .argsKind
  | .opt _ => .optsKind

def defnOnProcess : Defn → Option (AVal → ParsedState → List AVal)
  | .arg a => a.onProcess
  | .opt o => o.onProcess

def defnValidator : Defn → Option (AVal → ParsedState → VRes)
  | .arg a => a.validator
  | .opt o => o.validator

/-- `parsed[type]`. -/
def kindGet (p : ParsedState) : DefKind → List (String × AVal)
  | .argsKind => p.args
  | .optsKind => p.opts

/-- Assignment to `parsed[type]`. -/
def kindSet (p : ParsedState) (k : DefKind) (m : List (String × AVal)) : ParsedState :=
  match k with
  | .argsKind => { p with args := m }
  | .optsKind => { p with opts := m }

/-- Observable pipeline events: an `onProcess` hook invocation, or one
execution of a definition's validator. -/
inductive PEvent where
  | hookRun (k : DefKind) (name : String)
  | vRun (name : String)
deriving DecidableEq

/-- `validate` (cli-command.ts 419-427): no validator means success; any
validator result other than `true` raises a `ValidationError` carrying the
canonical name, the offending value and the validator's result. -/
def validateVal (d : Defn) (value : AVal) (p : ParsedState) : Except CillyErr Unit :=
  match defnValidator d with
  | none => .ok ()
  | some f =>
    match f value p with
    | .vtrue => .ok ()
    | r => .error (.validationError (getDefnName d) value r)

/-- The events produced by one `validate` call: a validator execution is
recorded only when the definition has a validator. -/
def validateEvents (d : Defn) : List PEvent :=
  match defnValidator d with
  | some _ => [.vRun (getDefnName d)]
  | none => []

/-- The `assign` capability handed to an `onProcess` hook
(cli-command.ts 399-402): re-validate the new value, and only on success
overwrite the bound value in the parse result. -/
def assignCap (d : Defn) (p : ParsedState) (v : AVal) : Except CillyErr ParsedState :=
  match validateVal d v p with
  | .error e => .error e
  | .ok () =>
    .ok (kindSet p (defnKind d) (insertAssoc (getDefnName d) v (kindGet p (defnKind d))))

/-- Run one hook's sequence of `assign` calls in order, threading the parse
state and recording the validator executions. -/
def runAssigns (d : Defn) : List AVal → ParsedState → Except CillyErr (ParsedState × List PEvent)
  | [], p => .ok (p, [])
  | v :: more, p =>
    match assignCap d p v with
    | .error e => .error e
    | .ok p' =>
      match runAssigns d more p' with
      | .error e => .error e
      | .ok (p'', evs) => .ok (p'', validateEvents d ++ evs)

/-- `runOnProcessHooks` (cli-command.ts 392-408): for each queue entry in
order, look up the bound value under the definition's canonical name and
kind, invoke its `onProcess` hook (when present) and perform the hook's
`assign` calls sequentially. -/
def runOnProcessHooks : List Defn → ParsedState → Except CillyErr (ParsedState × List PEvent)
  | [], p => .ok (p, [])
  | d :: rest, p =>
    match defnOnProcess d with
    | none => runOnProcessHooks rest p
    | some script =>
      let nm := getDefnName d
      let value := (lookupAssoc nm (kindGet p (defnKind d))).getD .undef
      match runAssigns d (script value p) p with
      | .error e => .error e
      | .ok (p', evs) =>
        match runOnProcessHooks rest p' with
        | .error e => .error e
        | .ok (p'', evs') => .ok (p'', (PEvent.hookRun (defnKind d) nm :: evs) ++ evs')

/-- `runValidators` (cli-command.ts 410-417): for every map entry with a
validator, validate the currently bound value. -/
def runValidators (p : ParsedState) (k : DefKind) :
    List (String × Defn) → Except CillyErr (List PEvent)
  | [] => .ok []
  | (nm, d) :: rest =>
    match defnValidator d with
    | none => runValidators p k rest
    | some _ =>
      let value := (lookupAssoc nm (kindGet p k)).getD .undef
      match validateVal d value p with
      | .error e => .error e
      | .ok () =>
        match runValidators p k rest with
        | .error e => .error e
        | .ok evs => .ok (PEvent.vRun (getDefnName d) :: evs)

/-- The hook-then-validators portion of `process` (cli-command.ts 346-350) on
the resolved command node: run every `onProcess` hook over `onProcessQueue`,
then a full validator pass over `argsMap` and over `opts`. -/
def processPipeline (core : CommandCore) (p : ParsedState) :
    Except CillyErr (ParsedState × List PEvent) :=
  match runOnProcessHooks core.onProcessQueue p with
  | .error e => .error e
  | .ok (p', t1) =>
    match runValidators p' .argsKind (core.argsMap.map (fun x => (x.1, Defn.arg x.2))) with
    | .error e => .error e
    | .ok t2 =>
      match runValidators p' .optsKind (core.opts.map (fun x => (x.1, Defn.opt x.2))) with
      | .error e => .error e
      | .ok t3 => .ok (p', t1 ++ t2 ++ t3)

/-- Is the event an `onProcess` hook invocation? -/
def isHookEvent : PEvent → Bool
  | .hookRun _ _ => true
  | .vRun _ => false

/-- The expected hook-invocation events for a queue: one per queue entry
that has an `onProcess` hook, in queue order. -/
def hookEventsOf (queue : List Defn) : List PEvent :=
  queue.filterMap (fun d =>
    match defnOnProcess d with
    | some _ => some (.hookRun (defnKind d) (getDefnName d))
    | none => none)

/-- The expected validator-pass events for a definition map: one per entry
that has a validator, in map order. -/
def vEventsOf (m : List (String × Defn)) : List PEvent :=
  m.filterMap (fun x =>
    match defnValidator x.2 with
    | some _ => some (.vRun (getDefnName x.2))
    | none => none)

/-! ### Concrete command fixtures used by witnesses and counterexamples -/

/-- Extract the command of a successful builder call (all fixture builder
calls below succeed; the fallback is never used). -/
def forceCmd (x : Except CillyErr CliCommand) : CliCommand :=
  match x with
  | .ok c => c
  | .error _ => .mk { name := "never" } []

/-- Projection of a parse outcome to its result triple. -/
def parsedOf (r : Except CillyErr (ParsedState × CliCommand)) : Option ParsedState :=
  match r with
  | .ok (p, _) => some p
  | .error _ => none

/-- A sub-command flagged to inherit all parent options. -/
def fxChild : CliCommand := forceCmd (mkCliCommand "sub" { inheritOpts := .all })

/-- A parent command with `fxChild` already attached. -/
def fxParent : CliCommand := forceCmd (do
  let p ← mkCliCommand "par" defaultCliCommandOptions
  withSubCommands p [fxChild])

/-- An option with an `onProcess` hook that performs no `assign` calls. -/
def fxOptA : COpt := { name := ("-a", "--aa"), onProcess := some (fun _ _ => []) }

def fxOptB : COpt := { name := ("-b", "--bb") }

/-- `fxParent` after registering `fxOptA` and `fxOptB` in one `withOptions`
call; the loop re-runs inheritance on `fxChild` after each insertion. -/
def fxParentReg : CliCommand := forceCmd (withOptions fxParent [fxOptA, fxOptB])

/-- The attached child of `fxParent` (before the extra registrations). -/
def fxAttachedChild : CliCommand :=
  match lookupAssoc "sub" fxParent.subCommands with
  | some ch => ch
  | none => .mk { name := "never" } []

/-- The child of `fxParentReg` (after the extra registrations). -/
def fxChildReg : CliCommand :=
  match lookupAssoc "sub" fxParentReg.subCommands with
  | some ch => ch
  | none => .mk { name := "never" } []

/-- `fxParent` after registering `fxOptA` alone. -/
def fxParentReg1 : CliCommand := forceCmd (withOptions fxParent [fxOptA])

/-- A validator accepting exactly the string value `"ok"`. -/
def fxVal : AVal → ParsedState → VRes :=
  fun v _ => match v with
    | .str "ok" => .vtrue
    | _ => .vfalse

def fxValArg : Argument := { name := "a", validator := some fxVal }

def fxValDefn : Defn := .arg fxValArg

/-- Option `--owner` with a single nested required argument (README example). -/
def fxOwnerOpt : COpt :=
  { name := ("-o", "--owner"), args := some [{ name := "owner", required := true }] }

def fxOwnerCmd : CliCommand := forceCmd (do
  let c ← mkCliCommand "house" defaultCliCommandOptions
  withOptions c [fxOwnerOpt])

/-- The three nested argument definitions of `--residents`. -/
def fxResArgDefs : List Argument :=
  [{ name := "owner", required := true },
   { name := "adults", variadic := true },
   { name := "children", variadic := true }]

/-- Option `--residents` with three nested arguments (README example). -/
def fxResidentsOpt : COpt :=
  { name := ("-r", "--residents"), args := some fxResArgDefs }

def fxResidentsCmd : CliCommand := forceCmd (do
  let c ← mkCliCommand "house" defaultCliCommandOptions
  withOptions c [fxResidentsOpt])

/-- An option with two nested arguments that share the canonical name `x`. -/
def fxDupOpt : COpt :=
  { name := ("-d", "--dup"),
    args := some [{ name := "x", required := true }, { name := "x", required := true }] }

def fxDupCmd : CliCommand := forceCmd (do
  let c ← mkCliCommand "house" defaultCliCommandOptions
  withOptions c [fxDupOpt])

/-- A command with one optional positional argument. -/
def fxC10Cmd : CliCommand := forceCmd (do
  let c ← mkCliCommand "cmd" defaultCliCommandOptions
  withArguments c [{ name := "a" }])

/-- The result triple of the first `parse` call on `fxC10Cmd`. -/
def fxC10Parsed1 : ParsedState := ⟨[("a", .str "x")], [("help", .undef)], []⟩

/-- The mutated node after the first `parse` call on `fxC10Cmd`. -/
def fxC10Node1 : CliCommand :=
  match parse fxC10Cmd ["x"] true with
  | .ok (_, c1) => c1
  | .error _ => .mk { name := "never" } []

theorem splitOnChar_ne_nil (sep : Char) (l : List Char) : splitOnChar sep l ≠ [] := by
  cases l with
  | nil => simp [splitOnChar]
  | cons c rest =>
    cases h : splitOnChar sep rest with
    | nil =>
      simp only [splitOnChar, h]
      split <;> simp
    | cons g gs =>
      simp only [splitOnChar, h]
      split <;> simp

theorem splitOnChar_cons_sep (sep : Char) (rest : List Char) :
    splitOnChar sep (sep :: rest) = [] :: splitOnChar sep rest := by
  cases h : splitOnChar sep rest with
  | nil => exact absurd h (splitOnChar_ne_nil sep rest)
  | cons g gs => simp [splitOnChar, h]

theorem splitOnChar_cons_ne (sep c : Char) (rest : List Char) (hc : ¬(c = sep)) :
    splitOnChar sep (c :: rest) =
      ((c :: (splitOnChar sep rest).headD []) :: (splitOnChar sep rest).tail) := by
  cases h : splitOnChar sep rest with
  | nil => exact absurd h (splitOnChar_ne_nil sep rest)
  | cons g gs => simp [splitOnChar, h, hc]

theorem validName_segs_aux :
    ∀ n (l : List Char), l.length ≤ n →
      validNameChars l = segsAfterDash (splitOnChar '-' l) ∧
      nameBlocksOk l = tailSegs (splitOnChar '-' l) := by
  intro n
  induction n with
  | zero =>
    intro l hl
    have hn : l = [] := List.eq_nil_of_length_eq_zero (Nat.le_zero.mp hl)
    subst hn
    exact ⟨by simp [validNameChars, splitOnChar, segsAfterDash],
           by simp [nameBlocksOk, splitOnChar, tailSegs]⟩
  | succ n ih =>
    intro l hl
    match l with
    | [] =>
      exact ⟨by simp [validNameChars, splitOnChar, segsAfterDash],
             by simp [nameBlocksOk, splitOnChar, tailSegs]⟩
    | c :: rest =>
      have hrest : rest.length ≤ n := by
        simp only [List.length_cons] at hl
        omega
      obtain ⟨ihA, ihB⟩ := ih rest hrest
      have hdash : isWordChar '-' = false := by decide
      constructor
      · -- validNameChars (c :: rest) vs segsAfterDash of the split
        by_cases hc : c = '-'
        · subst hc
          rw [splitOnChar_cons_sep]
          cases hs : splitOnChar '-' rest with
          | nil => exact absurd hs (splitOnChar_ne_nil '-' rest)
          | cons g gs =>
            simp [validNameChars, segsAfterDash, hdash]
        · rw [splitOnChar_cons_ne _ _ _ hc]
          cases hs : splitOnChar '-' rest with
          | nil => exact absurd hs (splitOnChar_ne_nil '-' rest)
          | cons g gs =>
            rw [hs] at ihB
            cases gs with
            | nil =>
              simp only [List.headD, List.tail]
              simp only [tailSegs] at ihB
              simp [validNameChars, segsAfterDash, ihB]
            | cons h t =>
              simp only [List.headD, List.tail]
              simp only [tailSegs] at ihB
              simp [validNameChars, segsAfterDash, ihB, Bool.and_assoc,
                    Bool.and_comm, Bool.and_left_comm]
      · -- nameBlocksOk (c :: rest) vs tailSegs of the split
        cases rest with
        | nil =>
          by_cases hc : c = '-'
          · subst hc
            rw [splitOnChar_cons_sep]
            simp [nameBlocksOk, splitOnChar, tailSegs, hdash]
          · rw [splitOnChar_cons_ne _ _ _ hc]
            simp [nameBlocksOk, splitOnChar, tailSegs]
        | cons d rest2 =>
          by_cases hd : d = '-'
          · subst hd
            cases rest2 with
            | nil =>
              by_cases hc : c = '-'
              · subst hc
                rw [splitOnChar_cons_sep, splitOnChar_cons_sep]
                simp [nameBlocksOk, splitOnChar, tailSegs, hdash]
              · rw [splitOnChar_cons_ne _ _ _ hc, splitOnChar_cons_sep]
                simp [nameBlocksOk, splitOnChar, tailSegs, segsAfterDash]
            | cons e r' =>
              have her : (e :: r').length ≤ n := by
                simp only [List.length_cons] at hl ⊢
                omega
              obtain ⟨ihA2, _⟩ := ih (e :: r') her
              by_cases hc : c = '-'
              · subst hc
                rw [splitOnChar_cons_sep, splitOnChar_cons_sep]
                cases hs : splitOnChar '-' (e :: r') with
                | nil => exact absurd hs (splitOnChar_ne_nil _ _)
                | cons g' gs' =>
                  simp [nameBlocksOk, tailSegs, hdash]
              · rw [splitOnChar_cons_ne _ _ _ hc, splitOnChar_cons_sep]
                cases hs : splitOnChar '-' (e :: r') with
                | nil => exact absurd hs (splitOnChar_ne_nil _ _)
                | cons g' gs' =>
                  rw [hs] at ihA2
                  simp only [List.headD, List.tail]
                  simp only [validNameChars] at ihA2
                  simp [nameBlocksOk, tailSegs, ← ihA2]
          · -- d ≠ '-'
            cases rest2 with
            | nil =>
              by_cases hc : c = '-'
              · subst hc
                rw [splitOnChar_cons_sep, splitOnChar_cons_ne _ _ _ hd]
                simp [nameBlocksOk, splitOnChar, tailSegs, hdash, hd]
              · rw [splitOnChar_cons_ne _ _ _ hc, splitOnChar_cons_ne _ _ _ hd]
                simp [nameBlocksOk, splitOnChar, tailSegs, hd]
            | cons e r' =>
              by_cases hc : c = '-'
              · subst hc
                rw [splitOnChar_cons_sep, splitOnChar_cons_ne _ _ _ hd]
                cases hs : splitOnChar '-' (e :: r') with
                | nil => exact absurd hs (splitOnChar_ne_nil _ _)
                | cons g gs =>
                  simp [nameBlocksOk, tailSegs, hdash, hd, hs]
              · rw [splitOnChar_cons_ne _ _ _ hc, splitOnChar_cons_ne _ _ _ hd]
                cases hs : splitOnChar '-' (e :: r') with
                | nil => exact absurd hs (splitOnChar_ne_nil _ _)
                | cons g gs =>
                  rw [splitOnChar_cons_ne _ _ _ hd, hs] at ihB
                  simp only [List.headD, List.tail] at ihB
                  cases gs with
                  | nil =>
                    simp only [tailSegs] at ihB
                    simp [nameBlocksOk, tailSegs, ihB, hd, Bool.and_assoc]
                  | cons h t =>
                    simp only [tailSegs] at ihB
                    simp [nameBlocksOk, tailSegs, ihB, hd, Bool.and_assoc,
                          Bool.and_comm, Bool.and_left_comm]

theorem joinAll_data (l : List String) : (joinAll l).data = (l.map String.data).flatten := by
  induction l with
  | nil => rfl
  | cons a t ih =>
    show (a ++ joinAll t).data = _
    simp [String.data_append, ih]

theorem capitalize_data (v : String) :
    (capitalize v).data = (v.data.take 1).map Char.toUpper ++ v.data.drop 1 := by
  simp [capitalize, String.data_append]

/-- C9 (counterexample): the name `a-b` is non-empty, purely alphanumeric with a
single internal dash, yet `isValidName` rejects it; and the underscore is
neither alphanumeric nor a dash, yet `isValidName` accepts `_`. -/
theorem c9_counterexample :
    claimAlnumDashName "a-b" = true ∧ isValidName "a-b" = false ∧
    claimAlnumDashName "_" = false ∧ isValidName "_" = true := by
  refine ⟨by decide, by decide, by decide, by decide⟩

/-- C9 (amended): `isValidName` accepts exactly the non-empty strings of word
characters (letters, digits, underscore) and dashes whose dash-separated
segments are all made of word characters, with the final segment non-empty and
every segment that precedes a dash at least two characters long; it returns
`false` on the empty string without failing. -/
theorem c9_isValidName_amended :
    (∀ s : String, isValidName s = segsAfterDash (splitOnChar '-' s.data)) ∧
    isValidName "" = false := by
  constructor
  · intro s
    exact (validName_segs_aux s.data.length s.data le_rfl).1
  · decide

/-- C8 (counterexample): `toCamelCase` does not lowercase the first word:
`["Docker", "compose"]` yields `DockerCompose`, not `dockerCompose`. -/
theorem c8_counterexample :
    toCamelCase ["Docker", "compose"] = "DockerCompose" ∧
    ("DockerCompose" : String) ≠ "dockerCompose" := by
  refine ⟨by decide, by decide⟩

/-- C8 (amended): `toCamelCase` concatenates the words keeping the first word
unchanged (not lowercased) and uppercasing only the first letter of each
subsequent word; the empty list yields the empty string, and an
already-lowercase dash-separated name such as `docker-compose-file` maps to
`dockerComposeFile`. -/
theorem c8_toCamelCase_amended :
    toCamelCase [] = "" ∧
    (∀ w ws, (toCamelCase (w :: ws)).data
        = w.data ++ (ws.map (fun v => (v.data.take 1).map Char.toUpper ++ v.data.drop 1)).flatten) ∧
    toCamelCase (splitStr '-' "docker-compose-file") = "dockerComposeFile" := by
  refine ⟨rfl, ?_, by decide⟩
  intro w ws
  have h1 : toCamelCase (w :: ws) = w ++ joinAll (ws.map capitalize) := rfl
  have h2 : ws.map (String.data ∘ capitalize)
      = ws.map (fun v => (v.data.take 1).map Char.toUpper ++ v.data.drop 1) :=
    List.map_congr_left (fun v _ => by simpa [Function.comp] using capitalize_data v)
  rw [h1, String.data_append, joinAll_data, List.map_map, h2]

/-! ## Association-list and queue lemmas -/

theorem lookupAssoc_insert_self {α : Type} (k : String) (v : α) (m : List (String × α)) :
    lookupAssoc k (insertAssoc k v m) = some v := by
  induction m with
  | nil => simp [insertAssoc, lookupAssoc]
  | cons h t ih =>
    obtain ⟨k', v'⟩ := h
    by_cases hk : k' = k
    · subst hk
      simp [insertAssoc, lookupAssoc]
    · simp [insertAssoc, lookupAssoc, hk, ih]

theorem lookupAssoc_insert_ne {α : Type} (k k' : String) (v : α) (m : List (String × α))
    (h : ¬(k' = k)) : lookupAssoc k' (insertAssoc k v m) = lookupAssoc k' m := by
  have h2 : ¬(k = k') := fun hh => h hh.symm
  induction m with
  | nil => simp [insertAssoc, lookupAssoc, h2]
  | cons hd t ih =>
    obtain ⟨k0, v0⟩ := hd
    by_cases hk : k0 = k
    · subst hk
      simp [insertAssoc, lookupAssoc, h2]
    · by_cases hk' : k0 = k'
      · subst hk'
        simp [insertAssoc, lookupAssoc, hk]
      · simp [insertAssoc, lookupAssoc, hk, hk', ih]

theorem lookupAssoc_insert_isSome {α : Type} (k k' : String) (v : α) (m : List (String × α))
    (h : (lookupAssoc k' m).isSome = true) :
    (lookupAssoc k' (insertAssoc k v m)).isSome = true := by
  by_cases hk : k' = k
  · subst hk
    simp [lookupAssoc_insert_self]
  · rw [lookupAssoc_insert_ne _ _ _ _ hk]
    exact h

theorem mem_assocValues_insert {α : Type} (k : String) (v : α) (m : List (String × α)) :
    v ∈ assocValues (insertAssoc k v m) := by
  induction m with
  | nil => simp [insertAssoc, assocValues]
  | cons hd t ih =>
    obtain ⟨k0, v0⟩ := hd
    by_cases hk : k0 = k
    · subst hk
      simp [insertAssoc, assocValues]
    · simp only [insertAssoc, assocValues] at ih ⊢
      simp [hk]
      right
      simpa [assocValues] using ih

/-- A fresh key is appended by `insertAssoc`. -/
theorem insertAssoc_fresh {α : Type} (k : String) (v : α) (m : List (String × α))
    (h : k ∉ m.map Prod.fst) : insertAssoc k v m = m ++ [(k, v)] := by
  induction m with
  | nil => simp [insertAssoc]
  | cons hd t ih =>
    obtain ⟨k0, v0⟩ := hd
    simp only [List.map_cons, List.mem_cons, not_or] at h
    have h2 : ¬(k0 = k) := fun hh => h.1 hh.symm
    simp [insertAssoc, h2, ih h.2]

/-! ## Consumption lemmas -/

theorem consumeVariadicArguments_len (q : List String) :
    (consumeVariadicArguments q).1.length + (consumeVariadicArguments q).2.length ≤ q.length := by
  induction q with
  | nil => simp [consumeVariadicArguments]
  | cons t rest ih =>
    by_cases h1 : (t == "" || isOptionName t) = true
    · simp [consumeVariadicArguments, h1]
    · by_cases h2 : isVariadicTerminator t = true
      · simp [consumeVariadicArguments, h1, h2]
      · simp [consumeVariadicArguments, h1, h2]
        omega

/-- C4: a variadic argument definition never raises a missing-value error
(even when required); an empty queue, or a queue whose head is an option
flag, binds the empty list; and whenever consumption takes no token at all
the bound value is the empty list. -/
theorem c4_variadic_empty_list (a : Argument) (hv : a.variadic = true) :
    (consumeArgument a [] = .ok ((getArgName a, .strList []), [])) ∧
    (∀ t q, isOptionName t = true →
      consumeArgument a (t :: q) = .ok ((getArgName a, .strList []), t :: q)) ∧
    (∀ q, ∃ vals q', consumeArgument a q = .ok ((getArgName a, .strList vals), q') ∧
      (q' = q → vals = [])) := by
  refine ⟨?_, ?_, ?_⟩
  · simp [consumeArgument, hv]
  · intro t q ht
    have hne : ¬(t = "") := by
      intro hh
      subst hh
      exact absurd ht (by decide)
    simp [consumeArgument, hv, hne, consumeVariadicArguments, ht]
  · intro q
    match q with
    | [] =>
      exact ⟨[], [], by simp [consumeArgument, hv], fun _ => rfl⟩
    | t :: rest =>
      by_cases hne : t = ""
      · subst hne
        exact ⟨[], "" :: rest, by simp [consumeArgument, hv], fun _ => rfl⟩
      · refine ⟨(consumeVariadicArguments (t :: rest)).1,
                (consumeVariadicArguments (t :: rest)).2, ?_, ?_⟩
        · cases hlist : consumeVariadicArguments (t :: rest) with
          | mk vals q2 => simp [consumeArgument, hv, hne, hlist]
        · intro hq
          have := consumeVariadicArguments_len (t :: rest)
          rw [hq] at this
          have : (consumeVariadicArguments (t :: rest)).1.length = 0 := by omega
          exact List.eq_nil_of_length_eq_zero this

/-- C5 (counterexample): a required *variadic* argument consumed with zero
remaining tokens binds the empty list instead of failing with an
"expected ... got nothing" error. -/
theorem c5_counterexample :
    ({ name := "files", required := true, variadic := true } : Argument).required = true ∧
    consumeArgument { name := "files", required := true, variadic := true } [] =
      .ok (("files", .strList []), []) := by
  exact ⟨rfl, rfl⟩

/-- C5 (amended): a required non-variadic argument consumed with zero
remaining tokens fails with `expected a value ... got nothing`; at
finalisation every required unbound option fails this way regardless of its
position in the option map, and any remaining required argument (variadic or
not) fails this way regardless of its position. -/
theorem c5_required_zero_tokens_amended :
    (∀ a : Argument, a.required = true → a.variadic = false →
      consumeArgument a [] = .error (expectedValueFor a.name)) ∧
    (∀ (opts : List (String × COpt)) (p : ParsedState) (nm : String) (o : COpt),
      (opts.map Prod.fst).Nodup → (nm, o) ∈ opts → o.required = true →
      lookupAssoc nm p.opts = none →
      ∃ nm', handleUnassignedOptions opts p = .error (expectedValueFor nm')) ∧
    (∀ (args : List Argument) (p : ParsedState),
      (∃ a ∈ args, a.required = true) →
      ∃ nm', handleUnassignedArguments args p = .error (expectedValueFor nm')) := by
  refine ⟨?_, ?_, ?_⟩
  · intro a hr hv
    simp [consumeArgument, hv, hr]
  · intro opts
    induction opts with
    | nil => intro p nm o _ hmem; simp at hmem
    | cons hd t ih =>
      intro p nm o hnd hmem hreq hnone
      obtain ⟨k0, o0⟩ := hd
      simp only [List.map_cons, List.nodup_cons] at hnd
      rcases List.mem_cons.mp hmem with heq | hmem'
      · have hk : nm = k0 := congrArg Prod.fst heq
        have ho : o = o0 := congrArg Prod.snd heq
        subst hk
        subst ho
        exact ⟨nm, by simp [handleUnassignedOptions, hnone, hreq]⟩
      · by_cases hb : (lookupAssoc k0 p.opts).isSome = true
        · simp only [handleUnassignedOptions, hb, if_true]
          exact ih p nm o hnd.2 hmem' hreq hnone
        · have hb' : (lookupAssoc k0 p.opts).isSome = false := by
            revert hb
            cases (lookupAssoc k0 p.opts).isSome <;> simp
          by_cases hr0 : o0.required = true
          · exact ⟨k0, by simp [handleUnassignedOptions, hb', hr0]⟩
          · have hr0' : o0.required = false := by
              revert hr0
              cases o0.required <;> simp
            have hnm : ¬(nm = k0) := by
              intro hh
              subst hh
              exact hnd.1 (List.mem_map_of_mem Prod.fst hmem')
            simp only [handleUnassignedOptions, hb', hr0', Bool.false_eq_true, if_false]
            exact ih _ nm o hnd.2 hmem' hreq
              (by rw [lookupAssoc_insert_ne _ _ _ _ hnm]; exact hnone)
  · intro args p hex
    obtain ⟨a, hmem, hreq⟩ := hex
    have : ∃ b, args.find? (fun a => a.required) = some b := by
      have h1 : (args.find? (fun a => a.required)).isSome = true := by
        rw [List.find?_isSome]
        exact ⟨a, hmem, hreq⟩
      exact Option.isSome_iff_exists.mp h1
    obtain ⟨b, hb⟩ := this
    exact ⟨b.name, by simp [handleUnassignedArguments, hb]⟩

/-- Witness for C4 at a concrete required variadic argument and queues. -/
theorem c4_witness :
    consumeArgument { name := "files", variadic := true, required := true } [] =
      .ok (("files", .strList []), []) :=
  (c4_variadic_empty_list { name := "files", variadic := true, required := true } rfl).1

/-- Witness for C5 (amended) at a concrete required non-variadic argument. -/
theorem c5_witness :
    consumeArgument { name := "dir", required := true } [] =
      .error (expectedValueFor "dir") :=
  (c5_required_zero_tokens_amended).1 { name := "dir", required := true } rfl rfl

/-- C3: the `assign` capability of an `onProcess` hook re-runs the owning
definition's validator: a rejected value raises a `ValidationError` (and, the
update being sequenced after the validation, the parse result is not
touched); an accepted value overwrites exactly the owning binding and leaves
every other binding of that kind unchanged. -/
theorem c3_assign_validation (d : Defn) (p : ParsedState) (v : AVal)
    (f : AVal → ParsedState → VRes) (hf : defnValidator d = some f) :
    (f v p ≠ .vtrue →
      assignCap d p v = .error (.validationError (getDefnName d) v (f v p))) ∧
    (f v p = .vtrue →
      ∃ p', assignCap d p v = .ok p' ∧
        lookupAssoc (getDefnName d) (kindGet p' (defnKind d)) = some v ∧
        (∀ nm', ¬(nm' = getDefnName d) →
          lookupAssoc nm' (kindGet p' (defnKind d)) =
            lookupAssoc nm' (kindGet p (defnKind d)))) := by
  constructor
  · intro hrej
    cases hres : f v p with
    | vtrue => exact absurd hres hrej
    | vfalse => simp [assignCap, validateVal, hf, hres]
    | vstr s => simp [assignCap, validateVal, hf, hres]
  · intro hacc
    refine ⟨kindSet p (defnKind d) (insertAssoc (getDefnName d) v (kindGet p (defnKind d))),
            ?_, ?_, ?_⟩
    · simp [assignCap, validateVal, hf, hacc]
    · cases hk : defnKind d <;> simp [kindGet, kindSet, hk, lookupAssoc_insert_self]
    · intro nm' hnm
      cases hk : defnKind d <;>
        simp [kindGet, kindSet, hk, lookupAssoc_insert_ne _ _ _ _ hnm]

/-- Witness for C3 at a concrete definition whose validator accepts only the
string `"ok"`: assigning `"bad"` is rejected, assigning `"ok"` succeeds. -/
theorem c3_witness :
    assignCap fxValDefn emptyParsed (.str "bad") =
      .error (.validationError (getDefnName fxValDefn) (.str "bad")
        (fxVal (.str "bad") emptyParsed)) :=
  (c3_assign_validation fxValDefn emptyParsed (.str "bad") fxVal rfl).1 (by decide)

/-! ## Assignment-splitting lemmas (C6) -/

theorem splitOnChar_headD (sep : Char) (l : List Char) :
    (splitOnChar sep l).headD [] = l.takeWhile (fun c => c != sep) := by
  induction l with
  | nil => simp [splitOnChar]
  | cons c rest ih =>
    by_cases hc : c = sep
    · subst hc
      rw [splitOnChar_cons_sep]
      simp [List.takeWhile]
    · rw [splitOnChar_cons_ne _ _ _ hc]
      have hbne : (c != sep) = true := bne_iff_ne.mpr hc
      cases hs : splitOnChar sep rest with
      | nil => exact absurd hs (splitOnChar_ne_nil sep rest)
      | cons g gs =>
        rw [hs] at ih
        simp only [List.headD] at ih ⊢
        simp [List.takeWhile, hbne, ih]

theorem splitOnChar_two_of_mem (sep : Char) (l : List Char) (h : sep ∈ l) :
    ∃ g0 g1 gs, splitOnChar sep l = g0 :: g1 :: gs := by
  induction l with
  | nil => simp at h
  | cons c rest ih =>
    by_cases hc : c = sep
    · subst hc
      rw [splitOnChar_cons_sep]
      cases hs : splitOnChar c rest with
      | nil => exact absurd hs (splitOnChar_ne_nil c rest)
      | cons g gs => exact ⟨[], g, gs, rfl⟩
    · have h' : sep ∈ rest := by
        rcases List.mem_cons.mp h with heq | hmem
        · exact absurd heq.symm hc
        · exact hmem
      obtain ⟨g0, g1, gs, hsplit⟩ := ih h'
      rw [splitOnChar_cons_ne _ _ _ hc, hsplit]
      exact ⟨c :: g0, g1, gs, rfl⟩

/-- C6 (counterexample): a token with two `=` signs is not rewritten into the
flag and the full remainder after the first `=`; the text after the second
`=` is dropped. -/
theorem c6_counterexample :
    splitOptionAssignments ["--flag=a=b"] = ["--flag", "a"] ∧
    (["--flag", "a"] : List String) ≠ ["--flag", "a=b"] := by
  exact ⟨by decide, by decide⟩

/-- C6 (amended): the pre-pass maps each token independently, preserving
order: a token containing `=` whose text before the first `=` is a valid
option flag becomes two tokens, the flag and the text between the first and
the second `=` (anything from a second `=` on is discarded); every other
token is kept unchanged. -/
theorem c6_split_amended (ts : List String) :
    splitOptionAssignments ts = ts.flatMap (fun t =>
      if t.data.contains '=' &&
          isOptionName (String.mk (t.data.takeWhile (fun c => c != '='))) then
        [String.mk (t.data.takeWhile (fun c => c != '=')),
         String.mk ((splitOnChar '=' t.data).getD 1 [])]
      else [t]) := by
  induction ts with
  | nil => simp [splitOptionAssignments]
  | cons t rest ih =>
    have hassign : isOptionAssignment t =
        (t.data.contains '=' &&
          isOptionName (String.mk (t.data.takeWhile (fun c => c != '=')))) := by
      rw [isOptionAssignment, splitOnChar_headD]
    by_cases hc : (t.data.contains '=' &&
        isOptionName (String.mk (t.data.takeWhile (fun c => c != '=')))) = true
    · have hcontains : t.data.contains '=' = true := by
        cases hcc : t.data.contains '='
        · rw [hcc] at hc; simp at hc
        · rfl
      obtain ⟨g0, g1, gs, hsplit⟩ :=
        splitOnChar_two_of_mem '=' t.data (List.mem_of_elem_eq_true hcontains)
      have hg0 : g0 = t.data.takeWhile (fun c => c != '=') := by
        have := splitOnChar_headD '=' t.data
        rw [hsplit] at this
        simpa using this
      simp only [splitOptionAssignments, hassign, hc, if_true, hsplit, List.map_cons,
        List.flatMap_cons, hg0, List.getD, List.get?, ih]
      simp
    · simp only [splitOptionAssignments, hassign, hc, if_false, List.flatMap_cons, ih]
      simp [hc]

/-! ## Option-consumption lemmas (C7) -/

theorem consumeArgument_name (a : Argument) (q : List String) (nm : String) (v : AVal)
    (q' : List String) (h : consumeArgument a q = .ok ((nm, v), q')) :
    nm = getArgName a := by
  simp only [consumeArgument] at h
  split at h
  all_goals try split at h
  all_goals try split at h
  all_goals simp_all

theorem consumeOptionArgs_keys (defs : List Argument) :
    ∀ q acc fields q',
      (defs.map getArgName).Nodup →
      (∀ k ∈ acc.map Prod.fst, k ∉ defs.map getArgName) →
      consumeOptionArgs defs q acc = .ok (fields, q') →
      fields.map Prod.fst = acc.map Prod.fst ++ defs.map getArgName := by
  induction defs with
  | nil =>
    intro q acc fields q' _ _ h
    simp only [consumeOptionArgs] at h
    simp only [Except.ok.injEq, Prod.mk.injEq] at h
    rw [← h.1]
    simp
  | cons a moreDefs ih =>
    intro q acc fields q' hnd hdisj h
    simp only [consumeOptionArgs] at h
    cases hca : consumeArgument a q with
    | error e => rw [hca] at h; simp at h
    | ok pr =>
      obtain ⟨⟨nm, v⟩, q1⟩ := pr
      simp only [hca] at h
      have hnm : nm = getArgName a := consumeArgument_name a q nm v q1 hca
      subst hnm
      simp only [List.map_cons, List.nodup_cons] at hnd
      have hfresh : getArgName a ∉ acc.map Prod.fst :=
        fun hmem => hdisj _ hmem (List.mem_cons_self _ _)
      rw [insertAssoc_fresh _ _ _ hfresh] at h
      have hdisj' : ∀ k ∈ (acc ++ [(getArgName a, v)]).map Prod.fst,
          k ∉ moreDefs.map getArgName := by
        intro k hk
        simp only [List.map_append, List.mem_append, List.map_cons, List.map_nil,
          List.mem_singleton] at hk
        rcases hk with hk | hk
        · exact fun hmem => hdisj k hk (List.mem_cons_of_mem _ hmem)
        · rw [hk]
          exact hnd.1
      have hres := ih q1 (acc ++ [(getArgName a, v)]) fields q' hnd.2 hdisj' h
      rw [hres]
      simp

/-- C7 (counterexample): an option with *two* nested arguments that share the
canonical name `x` does not keep the mapping: parsing binds the bare value of
the single surviving key (`"b"`), because the collapse step fires on any
one-key object. -/
theorem c7_counterexample :
    (fxDupOpt.args.getD []).length = 2 ∧
    parsedOf (parse fxDupCmd ["--dup", "a", "b"] true) =
      some ⟨[], [("dup", .str "b"), ("help", .undef)], []⟩ ∧
    AVal.str "b" ≠ AVal.obj [("x", .str "b")] := by
  refine ⟨rfl, by rfl, by simp⟩

/-- C7 (amended): consuming an option's flag consumes its nested arguments in
declared order into a name-keyed mapping (variadic ones stopping at the queue
end, an option flag, or a discarded `--`); the mapping collapses to the bare
value exactly when it has a single key — in particular always when there is
one nested argument, and never when the nested arguments have two or more
distinct canonical names.  The two README examples evaluate accordingly. -/
theorem c7_nested_arguments_amended :
    (parsedOf (parse fxOwnerCmd ["--owner", "anders"] true) =
      some ⟨[], [("owner", .str "anders"), ("help", .undef)], []⟩) ∧
    (parsedOf (parse fxResidentsCmd ["--residents", "J", "A", "B", "--", "C", "D"] true) =
      some ⟨[], [("residents",
                  .obj [("owner", .str "J"), ("adults", .strList ["A", "B"]),
                        ("children", .strList ["C", "D"])]),
                 ("help", .undef)], []⟩) ∧
    (∀ (a : Argument) (q : List String) fields q',
      consumeOptionArgs [a] q [] = .ok (fields, q') →
      ∃ v, fields = [(getArgName a, v)] ∧ collapseOptionValue (.obj fields) = v) ∧
    (∀ (defs : List Argument) (q : List String) fields q',
      2 ≤ defs.length → (defs.map getArgName).Nodup →
      consumeOptionArgs defs q [] = .ok (fields, q') →
      fields.map Prod.fst = defs.map getArgName ∧
        collapseOptionValue (.obj fields) = .obj fields) := by
  refine ⟨by rfl, by rfl, ?_, ?_⟩
  · intro a q fields q' h
    simp only [consumeOptionArgs] at h
    cases hca : consumeArgument a q with
    | error e => simp [hca] at h
    | ok pr =>
      obtain ⟨⟨nm, v⟩, q1⟩ := pr
      simp only [hca, consumeOptionArgs] at h
      have hnm : nm = getArgName a := consumeArgument_name a q nm v q1 hca
      subst hnm
      simp only [Except.ok.injEq, Prod.mk.injEq] at h
      refine ⟨v, ?_, ?_⟩
      · rw [← h.1]
        simp [insertAssoc]
      · rw [← h.1]
        simp [insertAssoc, collapseOptionValue]
  · intro defs q fields q' hlen hnd h
    have hkeys := consumeOptionArgs_keys defs q [] fields q' hnd (by simp) h
    simp only [List.map_nil, List.nil_append] at hkeys
    refine ⟨hkeys, ?_⟩
    have hflen : 2 ≤ fields.length := by
      have : fields.map Prod.fst = defs.map getArgName := hkeys
      have hl := congrArg List.length this
      simp only [List.length_map] at hl
      omega
    match fields, hflen with
    | f1 :: f2 :: fs, _ => simp [collapseOptionValue]

/-- Witness for C7 (amended) at the `--residents` nested definitions and a
concrete queue. -/
theorem c7_witness :
    ([("owner", AVal.str "J"), ("adults", AVal.strList ["A", "B"]),
      ("children", AVal.strList ["C", "D"])].map Prod.fst
        = fxResArgDefs.map getArgName) ∧
    collapseOptionValue (.obj [("owner", AVal.str "J"), ("adults", AVal.strList ["A", "B"]),
      ("children", AVal.strList ["C", "D"])])
      = .obj [("owner", AVal.str "J"), ("adults", AVal.strList ["A", "B"]),
              ("children", AVal.strList ["C", "D"])] :=
  c7_nested_arguments_amended.2.2.2 fxResArgDefs ["J", "A", "B", "--", "C", "D"]
    _ [] (by decide) (by decide) rfl

/-! ## Parse reuse (C10) -/

/-- C10 (counterexample): parsing `["x"]` on a node with one argument binds
`a = "x"`; resetting every parse accumulator and parsing the same input again
on the same node yields a different result (`x` lands in `extra`), because
`parse` destructively consumed the node's argument-definition list, which the
accumulator reset does not restore. -/
theorem c10_counterexample :
    parsedOf (parse fxC10Cmd ["x"] true) =
      some ⟨[("a", .str "x")], [("help", .undef)], []⟩ ∧
    parsedOf (parse (resetParsed fxC10Node1) ["x"] true) =
      some ⟨[], [("help", .undef)], ["x"]⟩ ∧
    (⟨[("a", .str "x")], [("help", .undef)], []⟩ : ParsedState) ≠
      ⟨[], [("help", .undef)], ["x"]⟩ := by
  refine ⟨by rfl, by rfl, ?_⟩
  intro h
  have := congrArg ParsedState.args h
  simp at this

/-- C10 (amended): for token streams free of option assignments, `parse` is
deterministic — two runs from the *same* node state (accumulators empty and
the argument-definition list intact, e.g. a freshly built node) produce
structurally equal results and mutated nodes.  Resetting only the
`{args, opts, extra}` accumulators between runs is not sufficient, since
`parse` also consumes the node's argument list (see the counterexample). -/
theorem c10_parse_deterministic_amended (c : CliCommand) (ts : List String)
    (_hna : ∀ t ∈ ts, isOptionAssignment t = false)
    (r1 r2 : ParsedState) (c1 c2 : CliCommand)
    (h1 : parse c ts true = .ok (r1, c1)) (h2 : parse c ts true = .ok (r2, c2)) :
    r1 = r2 ∧ c1 = c2 := by
  rw [h1] at h2
  have h3 := Except.ok.inj h2
  exact ⟨congrArg Prod.fst h3, congrArg Prod.snd h3⟩

/-- Witness for C10 (amended) at a concrete command and queue. -/
theorem c10_witness :
    (⟨[("a", AVal.str "x")], [("help", AVal.undef)], []⟩ : ParsedState) =
      ⟨[("a", AVal.str "x")], [("help", AVal.undef)], []⟩ ∧
    fxC10Node1 = fxC10Node1 :=
  c10_parse_deterministic_amended fxC10Cmd ["x"] (by decide)
    ⟨[("a", AVal.str "x")], [("help", AVal.undef)], []⟩
    ⟨[("a", AVal.str "x")], [("help", AVal.undef)], []⟩
    fxC10Node1 fxC10Node1 (by rfl) (by rfl)

/-! ## Registration lemmas (C1) -/

theorem regRun_addOne_elim (fuel : Nat) (c : CliCommand) (o : COpt) (r : RegRes)
    (h : regRun fuel (.addOne c o) = .ok r) :
    ∃ fuel' subs', fuel = fuel' + 1 ∧
      r = .cmd (.mk (insertOptionCore c.core o) subs') ∧
      regRun fuel' (.propagate (assocValues (insertOptionCore c.core o).opts)
        c.subCommands) = .ok (.subs subs') := by
  cases fuel with
  | zero => simp [regRun] at h
  | succ fuel' =>
    obtain ⟨core, subs⟩ := c
    simp only [regRun] at h
    cases hchk : checkOption o with
    | error e => rw [hchk] at h; simp at h
    | ok u =>
      rw [hchk] at h
      cases hprop : regRun fuel' (.propagate (assocValues (insertOptionCore core o).opts) subs) with
      | error e => rw [hprop] at h; simp at h
      | ok pr =>
        rw [hprop] at h
        cases pr with
        | cmd c0 => simp at h
        | subs subs' =>
          simp only [Except.ok.injEq] at h
          exact ⟨fuel', subs', rfl, h.symm ▸ rfl, hprop⟩

theorem regRun_addAll_opts_mono (os : List COpt) :
    ∀ (fuel : Nat) (c c' : CliCommand),
      regRun fuel (.addAll c os) = .ok (.cmd c') →
      ∀ k, (lookupAssoc k c.core.opts).isSome = true →
        (lookupAssoc k c'.core.opts).isSome = true := by
  induction os with
  | nil =>
    intro fuel c c' h k hk
    cases fuel with
    | zero => simp [regRun] at h
    | succ fuel' =>
      simp only [regRun, Except.ok.injEq, RegRes.cmd.injEq] at h
      rw [← h]
      exact hk
  | cons o rest ih =>
    intro fuel c c' h k hk
    cases fuel with
    | zero => simp [regRun] at h
    | succ fuel' =>
      simp only [regRun] at h
      cases hone : regRun fuel' (.addOne c o) with
      | error e => rw [hone] at h; simp at h
      | ok r =>
        rw [hone] at h
        obtain ⟨f2, subs', hf, hr, hprop⟩ := regRun_addOne_elim fuel' c o r hone
        subst hr
        have hk1 : (lookupAssoc k (CliCommand.mk (insertOptionCore c.core o) subs').core.opts).isSome
            = true := by
          simp only [CliCommand.core, insertOptionCore]
          exact lookupAssoc_insert_isSome _ _ _ _ hk
        exact ih fuel' _ c' h k hk1

theorem regRun_addAll_key_of_mem (os : List COpt) :
    ∀ (fuel : Nat) (c c' : CliCommand) (o : COpt), o ∈ os →
      regRun fuel (.addAll c os) = .ok (.cmd c') →
      (lookupAssoc (getOptionName o) c'.core.opts).isSome = true := by
  induction os with
  | nil => intro fuel c c' o hmem; simp at hmem
  | cons o0 rest ih =>
    intro fuel c c' o hmem h
    cases fuel with
    | zero => simp [regRun] at h
    | succ fuel' =>
      simp only [regRun] at h
      cases hone : regRun fuel' (.addOne c o0) with
      | error e => rw [hone] at h; simp at h
      | ok r =>
        rw [hone] at h
        obtain ⟨f2, subs', hf, hr, hprop⟩ := regRun_addOne_elim fuel' c o0 r hone
        subst hr
        rcases List.mem_cons.mp hmem with heq | hmem'
        · subst heq
          refine regRun_addAll_opts_mono rest fuel' _ c' h _ ?_
          simp only [CliCommand.core, insertOptionCore]
          rw [lookupAssoc_insert_self]
          rfl
        · exact ih fuel' _ c' o hmem' h

theorem regRun_propagate_get (subs : List (String × CliCommand)) :
    ∀ (fuel : Nat) (popts : List COpt) (subs' : List (String × CliCommand)),
      regRun fuel (.propagate popts subs) = .ok (.subs subs') →
      ∀ i nm ch, subs.get? i = some (nm, ch) →
        ∃ ch', subs'.get? i = some (nm, ch') ∧
          ((inheritTruthy ch.core.inheritOpts = true ∧
            ∃ f, regRun f (.inheritInto ch popts) = .ok (.cmd ch')) ∨
           (inheritTruthy ch.core.inheritOpts = false ∧ ch' = ch)) := by
  induction subs with
  | nil => intro fuel popts subs' h i nm ch hget; simp at hget
  | cons hd rest ih =>
    intro fuel popts subs' h i nm ch hget
    obtain ⟨nm0, ch0⟩ := hd
    cases fuel with
    | zero => simp [regRun] at h
    | succ fuel' =>
      simp only [regRun] at h
      by_cases htr : inheritTruthy ch0.core.inheritOpts = true
      · rw [if_pos htr] at h
        cases hin : regRun fuel' (.inheritInto ch0 popts) with
        | error e => rw [hin] at h; simp at h
        | ok r0 =>
          rw [hin] at h
          cases r0 with
          | subs l => simp at h
          | cmd ch0' =>
            cases hrest : regRun fuel' (.propagate popts rest) with
            | error e => rw [hrest] at h; simp at h
            | ok r1 =>
              rw [hrest] at h
              cases r1 with
              | cmd cc => simp at h
              | subs rest' =>
                simp only [Except.ok.injEq, RegRes.subs.injEq] at h
                subst h
                cases i with
                | zero =>
                  simp only [List.get?] at hget
                  obtain ⟨h1, h2⟩ := Prod.mk.inj (Option.some.inj hget)
                  subst h1
                  subst h2
                  exact ⟨ch0', rfl, Or.inl ⟨htr, fuel', hin⟩⟩
                | succ i' =>
                  simp only [List.get?] at hget ⊢
                  exact ih fuel' popts rest' hrest i' nm ch hget
      · have htr' : inheritTruthy ch0.core.inheritOpts = false := by
          revert htr
          cases inheritTruthy ch0.core.inheritOpts <;> simp
        rw [if_neg htr] at h
        cases hrest : regRun fuel' (.propagate popts rest) with
        | error e => rw [hrest] at h; simp at h
        | ok r1 =>
          rw [hrest] at h
          cases r1 with
          | cmd cc => simp at h
          | subs rest' =>
            simp only [Except.ok.injEq, RegRes.subs.injEq] at h
            subst h
            cases i with
            | zero =>
              simp only [List.get?] at hget
              obtain ⟨h1, h2⟩ := Prod.mk.inj (Option.some.inj hget)
              subst h1
              subst h2
              exact ⟨ch0, rfl, Or.inr ⟨htr', rfl⟩⟩
            | succ i' =>
              simp only [List.get?] at hget ⊢
              exact ih fuel' popts rest' hrest i' nm ch hget

theorem regRun_inheritInto_elim (fuel : Nat) (c : CliCommand) (os : List COpt) (r : RegRes)
    (h : regRun fuel (.inheritInto c os) = .ok r) :
    ∃ fuel', fuel = fuel' + 1 ∧
      regRun fuel' (.addAll c (os.filter
        (fun o => shouldInheritOption c.core.inheritOpts o))) = .ok r := by
  cases fuel with
  | zero => simp [regRun] at h
  | succ fuel' => exact ⟨fuel', rfl, h⟩

/-- C1: immediately after an option `o` is registered on a parent via
`withOptions`, every already-attached sub-command with option inheritance
enabled holds `o` in its option map under `o`'s canonical name — unless `o`
is `--help` or its long flag is in the child's except-list (both cases are
exactly `shouldInheritOption = false`) — and no key previously present in
the child's option map has been removed: the child's option-key set stays a
superset of what it was before the registration. -/
theorem c1_inherit_propagation (c : CliCommand) (o : COpt) (c' : CliCommand)
    (hreg : withOptions c [o] = .ok c') :
    ∀ i nm ch, c.subCommands.get? i = some (nm, ch) →
      inheritTruthy ch.core.inheritOpts = true →
      shouldInheritOption ch.core.inheritOpts o = true →
      ∃ ch', c'.subCommands.get? i = some (nm, ch') ∧
        (lookupAssoc (getOptionName o) ch'.core.opts).isSome = true ∧
        (∀ k, (lookupAssoc k ch.core.opts).isSome = true →
              (lookupAssoc k ch'.core.opts).isSome = true) := by
  intro i nm ch hget htruthy hshould
  -- peel the wrapper down to the single `addOne` step
  simp only [withOptions, withOptionsF] at hreg
  cases hrun : regRun (regFuel c [o]) (.addAll c [o]) with
  | error e => rw [hrun] at hreg; simp at hreg
  | ok r =>
    rw [hrun] at hreg
    cases r with
    | subs l => simp at hreg
    | cmd c'' =>
      simp only [Except.ok.injEq] at hreg
      subst hreg
      cases hfuel : regFuel c [o] with
      | zero => rw [hfuel] at hrun; simp [regRun] at hrun
      | succ f1 =>
        rw [hfuel] at hrun
        simp only [regRun] at hrun
        cases hone : regRun f1 (.addOne c o) with
        | error e => rw [hone] at hrun; simp at hrun
        | ok r1 =>
          rw [hone] at hrun
          obtain ⟨f2, subs', hf2, hr1, hprop⟩ := regRun_addOne_elim f1 c o r1 hone
          subst hr1
          -- the trailing `addAll []` step returns the `addOne` result
          cases f1 with
          | zero => simp [regRun] at hrun
          | succ f3 =>
            simp only [regRun, Except.ok.injEq, RegRes.cmd.injEq] at hrun
            obtain ⟨ch', hget', hcase⟩ :=
              regRun_propagate_get c.subCommands f2
                (assocValues (insertOptionCore c.core o).opts) subs' hprop i nm ch hget
            refine ⟨ch', ?_, ?_, ?_⟩
            · rw [← hrun]
              simpa [CliCommand.subCommands] using hget'
            · rcases hcase with ⟨_, f4, hin⟩ | ⟨hfalse, _⟩
              · obtain ⟨f5, hf5, haddall⟩ :=
                  regRun_inheritInto_elim f4 ch _ (.cmd ch') hin
                refine regRun_addAll_key_of_mem _ f5 ch ch' o ?_ haddall
                refine List.mem_filter.mpr ⟨?_, hshould⟩
                simp only [insertOptionCore]
                exact mem_assocValues_insert _ _ _
              · rw [hfalse] at htruthy
                exact absurd htruthy (by simp)
            · intro k hk
              rcases hcase with ⟨_, f4, hin⟩ | ⟨hfalse, heq⟩
              · obtain ⟨f5, hf5, haddall⟩ :=
                  regRun_inheritInto_elim f4 ch _ (.cmd ch') hin
                exact regRun_addAll_opts_mono _ f5 ch ch' haddall k hk
              · rw [heq]
                exact hk

/-- Witness for C1: registering `--aa` on `fxParent` makes the inheriting
child `sub` acquire it. -/
theorem c1_witness :
    ∃ ch', fxParentReg1.subCommands.get? 0 = some ("sub", ch') ∧
      (lookupAssoc (getOptionName fxOptA) ch'.core.opts).isSome = true ∧
      (∀ k, (lookupAssoc k fxAttachedChild.core.opts).isSome = true →
            (lookupAssoc k ch'.core.opts).isSome = true) :=
  c1_inherit_propagation fxParent fxOptA fxParentReg1 (by rfl) 0 "sub" fxAttachedChild
    (by rfl) (by rfl) (by rfl)

/-! ## Pipeline-trace lemmas (C2) -/

theorem runAssigns_no_hook_events (d : Defn) (vs : List AVal) :
    ∀ (p p' : ParsedState) (evs : List PEvent),
      runAssigns d vs p = .ok (p', evs) → evs.filter isHookEvent = [] := by
  induction vs with
  | nil =>
    intro p p' evs h
    simp only [runAssigns, Except.ok.injEq, Prod.mk.injEq] at h
    rw [← h.2]
    rfl
  | cons v more ih =>
    intro p p' evs h
    simp only [runAssigns] at h
    cases hass : assignCap d p v with
    | error e => simp only [hass] at h; simp at h
    | ok p1 =>
      simp only [hass] at h
      cases hrec : runAssigns d more p1 with
      | error e => simp only [hrec] at h; simp at h
      | ok pr =>
        obtain ⟨p2, evs2⟩ := pr
        simp only [hrec] at h
        simp only [Except.ok.injEq, Prod.mk.injEq] at h
        rw [← h.2]
        rw [List.filter_append]
        rw [ih p1 p2 evs2 hrec]
        cases hval : defnValidator d <;> simp [validateEvents, hval, isHookEvent]

theorem runOnProcessHooks_trace (defs : List Defn) :
    ∀ (p p' : ParsedState) (tr : List PEvent),
      runOnProcessHooks defs p = .ok (p', tr) →
      tr.filter isHookEvent = hookEventsOf defs := by
  induction defs with
  | nil =>
    intro p p' tr h
    simp only [runOnProcessHooks, Except.ok.injEq, Prod.mk.injEq] at h
    rw [← h.2]
    rfl
  | cons d rest ih =>
    intro p p' tr h
    simp only [runOnProcessHooks] at h
    cases hop : defnOnProcess d with
    | none =>
      simp only [hop] at h
      rw [hookEventsOf, List.filterMap_cons, hop]
      exact ih p p' tr h
    | some script =>
      simp only [hop] at h
      cases hass : runAssigns d
          (script ((lookupAssoc (getDefnName d) (kindGet p (defnKind d))).getD .undef) p) p with
      | error e => simp only [hass] at h; simp at h
      | ok pr1 =>
        obtain ⟨p1, evs1⟩ := pr1
        simp only [hass] at h
        cases hrec : runOnProcessHooks rest p1 with
        | error e => simp only [hrec] at h; simp at h
        | ok pr2 =>
          obtain ⟨p2, evs2⟩ := pr2
          simp only [hrec] at h
          simp only [Except.ok.injEq, Prod.mk.injEq] at h
          rw [← h.2]
          rw [hookEventsOf, List.filterMap_cons, hop]
          simp only [List.cons_append, List.filter_append, List.filter_cons]
          rw [runAssigns_no_hook_events d _ p p1 evs1 hass, ih p1 p2 evs2 hrec]
          simp [isHookEvent, hookEventsOf]

theorem runValidators_trace (m : List (String × Defn)) :
    ∀ (p : ParsedState) (k : DefKind) (evs : List PEvent),
      runValidators p k m = .ok evs → evs = vEventsOf m := by
  induction m with
  | nil =>
    intro p k evs h
    simp only [runValidators, Except.ok.injEq] at h
    rw [← h]
    rfl
  | cons hd rest ih =>
    intro p k evs h
    obtain ⟨nm, d⟩ := hd
    simp only [runValidators] at h
    cases hval : defnValidator d with
    | none =>
      simp only [hval] at h
      rw [vEventsOf, List.filterMap_cons]
      simp only [hval]
      exact ih p k evs h
    | some f =>
      simp only [hval] at h
      cases hv : validateVal d ((lookupAssoc nm (kindGet p k)).getD .undef) p with
      | error e => simp only [hv] at h; simp at h
      | ok u =>
        simp only [hv] at h
        cases hrec : runValidators p k rest with
        | error e => simp only [hrec] at h; simp at h
        | ok evs2 =>
          simp only [hrec] at h
          simp only [Except.ok.injEq] at h
          rw [← h]
          rw [vEventsOf, List.filterMap_cons]
          simp only [hval]
          rw [ih p k evs2 hrec]
          rfl

theorem withArguments_queue (as : List Argument) :
    ∀ (c c' : CliCommand), withArguments c as = .ok c' →
      c'.core.onProcessQueue = c.core.onProcessQueue ++ as.map Defn.arg := by
  induction as with
  | nil =>
    intro c c' h
    simp only [withArguments, Except.ok.injEq] at h
    rw [← h]
    simp
  | cons a rest ih =>
    intro c c' h
    obtain ⟨core, subs⟩ := c
    simp only [withArguments] at h
    cases hchk : checkArgument subs.isEmpty false a with
    | error e => simp only [hchk] at h; simp at h
    | ok u =>
      simp only [hchk] at h
      by_cases hdup : core.args.any (fun a0 => a0.name == a.name) = true
      · rw [if_pos hdup] at h; simp at h
      · rw [if_neg hdup] at h
        have := ih _ c' h
        simp only [CliCommand.core] at this ⊢
        rw [this]
        simp

theorem regRun_addAll_queue (os : List COpt) :
    ∀ (fuel : Nat) (c c' : CliCommand),
      regRun fuel (.addAll c os) = .ok (.cmd c') →
      c'.core.onProcessQueue = c.core.onProcessQueue ++ os.map Defn.opt := by
  induction os with
  | nil =>
    intro fuel c c' h
    cases fuel with
    | zero => simp [regRun] at h
    | succ fuel' =>
      simp only [regRun, Except.ok.injEq, RegRes.cmd.injEq] at h
      rw [← h]
      simp
  | cons o rest ih =>
    intro fuel c c' h
    cases fuel with
    | zero => simp [regRun] at h
    | succ fuel' =>
      simp only [regRun] at h
      cases hone : regRun fuel' (.addOne c o) with
      | error e => simp only [hone] at h; simp at h
      | ok r =>
        simp only [hone] at h
        obtain ⟨f2, subs', hf, hr, hprop⟩ := regRun_addOne_elim fuel' c o r hone
        subst hr
        have h2 : regRun fuel' (.addAll (CliCommand.mk (insertOptionCore c.core o) subs') rest)
            = .ok (.cmd c') := by simpa using h
        have h3 := ih fuel' _ c' h2
        rw [h3]
        simp [CliCommand.core, insertOptionCore]

/-- C2 (counterexample): after `fxParent` registers `--aa` and then `--bb`,
the inheriting child's `onProcessQueue` holds `--aa` twice (each registration
re-ran inheritance, and re-registration pushes the same definition again), so
the pipeline invokes the single definition's `onProcess` hook twice — not
exactly once per definition. -/
theorem c2_counterexample :
    fxChildReg.core.onProcessQueue.map getDefnName = ["help", "aa", "aa", "bb"] ∧
    processPipeline fxChildReg.core emptyParsed =
      .ok (emptyParsed, [.hookRun .optsKind "aa", .hookRun .optsKind "aa"]) ∧
    List.count (PEvent.hookRun .optsKind "aa")
      [PEvent.hookRun .optsKind "aa", PEvent.hookRun .optsKind "aa"] = 2 := by
  refine ⟨by rfl, by rfl, by decide⟩

/-- C2 (amended): on every successful pipeline run, the hook invocations come
first — sequentially, one per entry of the resolved node's registration queue
(`onProcessQueue`, arguments and options interleaved in registration order;
an option re-registered by repeated inheritance occupies several entries and
runs once per entry) — and only then a full validator pass covers every
definition with a validator in `argsMap` and in the option map, regardless of
assign-time validations during the hooks.  Registration order is the queue:
`withArguments` and `withOptions` append their definitions in call order. -/
theorem c2_hook_validator_order_amended :
    (∀ (core : CommandCore) (p p' : ParsedState) (tr : List PEvent),
      processPipeline core p = .ok (p', tr) →
      ∃ t1, tr = t1 ++ vEventsOf (core.argsMap.map (fun x => (x.1, Defn.arg x.2)))
                ++ vEventsOf (core.opts.map (fun x => (x.1, Defn.opt x.2))) ∧
        t1.filter isHookEvent = hookEventsOf core.onProcessQueue) ∧
    (∀ (c : CliCommand) (as : List Argument) (c' : CliCommand),
      withArguments c as = .ok c' →
      c'.core.onProcessQueue = c.core.onProcessQueue ++ as.map Defn.arg) ∧
    (∀ (c : CliCommand) (os : List COpt) (c' : CliCommand),
      withOptions c os = .ok c' →
      c'.core.onProcessQueue = c.core.onProcessQueue ++ os.map Defn.opt) := by
  refine ⟨?_, ?_, ?_⟩
  · intro core p p' tr h
    simp only [processPipeline] at h
    cases hhooks : runOnProcessHooks core.onProcessQueue p with
    | error e => simp only [hhooks] at h; simp at h
    | ok pr1 =>
      obtain ⟨p1, t1⟩ := pr1
      simp only [hhooks] at h
      cases hv1 : runValidators p1 .argsKind (core.argsMap.map (fun x => (x.1, Defn.arg x.2))) with
      | error e => simp only [hv1] at h; simp at h
      | ok t2 =>
        simp only [hv1] at h
        cases hv2 : runValidators p1 .optsKind (core.opts.map (fun x => (x.1, Defn.opt x.2))) with
        | error e => simp only [hv2] at h; simp at h
        | ok t3 =>
          simp only [hv2, Except.ok.injEq, Prod.mk.injEq] at h
          refine ⟨t1, ?_, runOnProcessHooks_trace _ p p1 t1 hhooks⟩
          rw [← h.2, runValidators_trace _ p1 .argsKind t2 hv1,
              runValidators_trace _ p1 .optsKind t3 hv2]
  · intro c as c' h
    exact withArguments_queue as c c' h
  · intro c os c' h
    simp only [withOptions, withOptionsF] at h
    cases hrun : regRun (regFuel c os) (.addAll c os) with
    | error e => simp only [hrun] at h; simp at h
    | ok r =>
      simp only [hrun] at h
      cases r with
      | subs l => simp at h
      | cmd c'' =>
        simp only [Except.ok.injEq] at h
        subst h
        exact regRun_addAll_queue os _ c c'' hrun

/-- Witness for C2 (amended) on the concrete duplicated-queue child. -/
theorem c2_witness :
    ∃ t1, [PEvent.hookRun .optsKind "aa", PEvent.hookRun .optsKind "aa"]
        = t1 ++ vEventsOf (fxChildReg.core.argsMap.map (fun x => (x.1, Defn.arg x.2)))
             ++ vEventsOf (fxChildReg.core.opts.map (fun x => (x.1, Defn.opt x.2))) ∧
      t1.filter isHookEvent = hookEventsOf fxChildReg.core.onProcessQueue :=
  c2_hook_validator_order_amended.1 fxChildReg.core emptyParsed emptyParsed
    [PEvent.hookRun .optsKind "aa", PEvent.hookRun .optsKind "aa"] (by rfl)
